import Mathlib

/-!
Verification of the pdf-file-renamer core: the filename sanitizer, the
multi-person name formatter, the metadata records and their template
substitution, the collision resolver and the copy/delete materializer.
Each Python function from `src/file_renamer/models.py` and
`src/file_renamer/cli.py` is embedded as an executable Lean definition on
`List Char` / `String`, and the frozen claims are settled as theorems
about those definitions.
-/

namespace FileRenamer

/-! ### Filename sanitizer (`_clean_for_filename`, models.py lines 107-123 / 224-240)

Python:
  invalid_chars = the nine characters below; for each, text = text.replace(char, '')
  text = ' '.join(text.split())
  if len(text) > 200: text = text[:200].rsplit(' ', 1)[0] + '...'
  return text.strip()
-/

/-- The fixed illegal character set of `_clean_for_filename`. -/
def illegalChars : List Char := ['<', '>', ':', '"', '/', '\\', '|', '?', '*']

/-- Python `text.replace(c, '')`: delete every occurrence of one character. -/
def removeChar (c : Char) (cs : List Char) : List Char :=
  cs.filter (fun d => d ≠ c)

/-- The sequential `for char in invalid_chars: text = text.replace(char, '')` loop. -/
def removeIllegal (cs : List Char) : List Char :=
  illegalChars.foldl (fun acc c => removeChar c acc) cs

/-- Helper for `pySplit`: scans the characters, accumulating the current word
reversed in `acc`, emitting a word at each whitespace boundary. -/
def wordsAux : List Char → List Char → List (List Char)
  | acc, [] => if acc = [] then [] else [acc.reverse]
  | acc, c :: rest =>
    if c.isWhitespace then
      if acc = [] then wordsAux [] rest
      else acc.reverse :: wordsAux [] rest
    else wordsAux (c :: acc) rest

/-- Python `text.split()` (no argument): the maximal whitespace-free runs. -/
def pySplit (cs : List Char) : List (List Char) := wordsAux [] cs

/-- Python `' '.join(words)`. -/
def joinWords : List (List Char) → List Char
  | [] => []
  | [w] => w
  | w :: ws => w ++ ' ' :: joinWords ws

/-- Python `' '.join(text.split())`: collapse whitespace runs and trim. -/
def collapseWs (cs : List Char) : List Char := joinWords (pySplit cs)

/-- The part of `t` strictly before the last occurrence of `sep`, when `sep`
occurs; `none` otherwise.  `(beforeLastOcc sep t).getD t` is Python
`t.rsplit(sep, 1)[0]` for a one-character separator. -/
def beforeLastOcc (sep : Char) : List Char → Option (List Char)
  | [] => none
  | c :: rest =>
    match beforeLastOcc sep rest with
    | some p => some (c :: p)
    | none => if c = sep then some [] else none

/-- Python `t.rsplit(' ', 1)[0]`. -/
def dropLastSpaceSeg (t : List Char) : List Char :=
  (beforeLastOcc ' ' t).getD t

/-- The `'...'` marker appended on truncation. -/
def dots : List Char := ['.', '.', '.']

/-- The truncation step: `if len(text) > 200: text = text[:200].rsplit(' ', 1)[0] + '...'`. -/
def truncate200 (cs : List Char) : List Char :=
  if cs.length > 200 then dropLastSpaceSeg (cs.take 200) ++ dots else cs

/-- Python `text.strip()`: drop leading and trailing whitespace. -/
def trimWs (cs : List Char) : List Char :=
  ((cs.dropWhile Char.isWhitespace).reverse.dropWhile Char.isWhitespace).reverse

/-- `_clean_for_filename` on character lists: remove illegal characters,
collapse whitespace, truncate to 200 with a `'...'` marker, strip. -/
def clean_for_filename (cs : List Char) : List Char :=
  trimWs (truncate200 (collapseWs (removeIllegal cs)))

/-- `_clean_for_filename` as a `String` function (models.py 107-123; the copy
at 224-240 is character-for-character identical). -/
def cleanS (s : String) : String := String.mk (clean_for_filename s.data)

/-- No two adjacent characters are both whitespace. -/
def noDoubleWsB : List Char → Bool
  | a :: b :: rest => (!(a.isWhitespace && b.isWhitespace)) && noDoubleWsB (b :: rest)
  | _ => true

/-- The head, if any, is not whitespace. -/
def headNotWs (cs : List Char) : Prop :=
  ∀ c, cs.head? = some c → c.isWhitespace = false

/-- The last character, if any, is not whitespace. -/
def lastNotWs (cs : List Char) : Prop :=
  ∀ c, cs.getLast? = some c → c.isWhitespace = false

/-- Shorthand: every word in the list is nonempty and whitespace-free. -/
def WordList (l : List (List Char)) : Prop :=
  ∀ w ∈ l, w ≠ [] ∧ ∀ c ∈ w, c.isWhitespace = false

/-! ### Multi-person name formatter (`_format_multiple_last_names`, models.py 125-165) -/

/-- Prepend a character to the first piece of a split result. -/
def consHead (c : Char) : List (List Char) → List (List Char)
  | [] => [[c]]
  | r :: rs => (c :: r) :: rs

/-- Python `s.split(sep)` for a nonempty separator: split at each leftmost
non-overlapping occurrence, keeping empty pieces.  (Python raises on an empty
separator; the code only uses nonempty ones, for which this returns `[cs]`
shape-compatible behaviour is irrelevant.) -/
def pySplitOn (sep : List Char) : List Char → List (List Char)
  | [] => [[]]
  | c :: rest =>
    if sep ≠ [] ∧ sep.isPrefixOf (c :: rest) then
      [] :: pySplitOn sep (rest.drop (sep.length - 1))
    else consHead c (pySplitOn sep rest)
termination_by cs => cs.length
decreasing_by
  · simp only [List.length_drop, List.length_cons]; omega
  · simp only [List.length_cons]; omega

/-- The separators of `_format_multiple_last_names`, in source order:
`' and '`, `', '`, `' & '`, `';'`. -/
def sepAnd : List Char := [' ', 'a', 'n', 'd', ' ']

def sepCommaSp : List Char := [',', ' ']

def sepAmpersand : List Char := [' ', '&', ' ']

def sepSemicolon : List Char := [';']

/-- One pass of the separator loop:
`new_names.extend([n.strip() for n in name.split(sep) if n.strip()])`. -/
def splitStep (sep : List Char) (names : List (List Char)) : List (List Char) :=
  names.foldr (fun n acc => ((pySplitOn sep n).map trimWs).filter (fun t => t ≠ []) ++ acc) []

/-- The full progressive split over the four separators, starting from `[cs]`. -/
def splitNames (cs : List Char) : List (List Char) :=
  splitStep sepSemicolon (splitStep sepAmpersand (splitStep sepCommaSp (splitStep sepAnd [cs])))

/-- The dedup loop with its `seen` set and `unique_names` accumulator:
membership is tested on the token, and the stripped token is inserted. -/
def dedupAux : List (List Char) → List (List Char) → List (List Char) → List (List Char)
  | _, acc, [] => acc.reverse
  | seen, acc, n :: rest =>
    if n ∈ seen then dedupAux seen acc rest
    else dedupAux (trimWs n :: seen) (trimWs n :: acc) rest

/-- First-seen-order deduplication with case-sensitive exact matching, as the
spec words it (the second definition of a refinement pair; compare
`dedupAux`). -/
def dedupFirstSeen : List (List Char) → List (List Char)
  | [] => []
  | n :: rest => n :: dedupFirstSeen (rest.filter (fun m => m ≠ n))
termination_by l => l.length
decreasing_by
  simp only [List.length_cons]
  exact Nat.lt_succ_of_le (List.length_filter_le _ _)

/-- Python `', '.join(names)`. -/
def joinCommaSp : List (List Char) → List Char
  | [] => []
  | [w] => w
  | w :: ws => w ++ ',' :: ' ' :: joinCommaSp ws

/-- The `' et al'` marker. -/
def etAl : List Char := [' ', 'e', 't', ' ', 'a', 'l']

/-- `_format_multiple_last_names` (models.py 125-165): early return `"Unknown"`
for a falsy input, progressive split, dedup, then the size dispatch. -/
def format_multiple_last_names (s : String) : String :=
  if s.data = [] then "Unknown"
  else
    let u := dedupAux [] [] (splitNames s.data)
    if u = [] then "Unknown"
    else if u.length = 1 then String.mk (u.headD [])
    else if u.length ≤ 3 then String.mk (joinCommaSp u)
    else String.mk (joinCommaSp (u.take 3) ++ etAl)

/-- The name-list result as the spec words it (refinement pair for claim C5):
split, trim, drop empties, `dedupFirstSeen`, then 0 names → `"Unknown"`,
1 name → itself, 2-3 names → joined with `", "`, 4+ → first three plus
`" et al"`; no special case for the empty string. -/
def specNameList (s : String) : String :=
  let u := dedupFirstSeen (splitNames s.data)
  if u.length = 0 then "Unknown"
  else if u.length = 1 then String.mk (u.headD [])
  else if u.length ≤ 3 then String.mk (joinCommaSp u)
  else String.mk (joinCommaSp (u.take 3) ++ etAl)

/-! ### Metadata records (models.py 5-35 and 168-190)

The two pydantic models.  An `Optional[str]` field is an `Option String`;
the required `str` fields are plain `String`s. -/

structure BibliographicInfo where
  author : Option String
  author_last : Option String
  editor : Option String
  editor_last : Option String
  year : Option String
  title : String
  subtitle : Option String
deriving DecidableEq

structure ScreenshotInfo where
  application : Option String
  date : Option String
  time : Option String
  content_type : Option String
  main_subject : String
deriving DecidableEq

/-- Python truthiness of an optional string: `None` and `""` are falsy. -/
def pyTruthy : Option String → Bool
  | none => false
  | some s => s != ""

/-- Python `o or d` for an optional string `o`. -/
def pyOr (o : Option String) (d : String) : String :=
  match o with
  | none => d
  | some s => if s = "" then d else s

/-- The `author_or_editor` property (models.py 37-45). -/
def author_or_editor (b : BibliographicInfo) : String :=
  if pyTruthy b.author then b.author.getD ""
  else if pyTruthy b.editor then (b.editor.getD "") ++ " (Ed.)"
  else "Unknown"

/-- The `author_or_editor_last` property (models.py 47-56). -/
def author_or_editor_last (b : BibliographicInfo) : String :=
  if pyTruthy b.author_last then format_multiple_last_names (b.author_last.getD "")
  else if pyTruthy b.editor_last then
    format_multiple_last_names (b.editor_last.getD "") ++ " (Ed.)"
  else "Unknown"

/-- Python `text.rstrip()`. -/
def rstripWs (cs : List Char) : List Char :=
  (cs.reverse.dropWhile Char.isWhitespace).reverse

/-- Python `t.endswith(('.', '!', '?', ':'))`. -/
def endsWithPunct (t : List Char) : Bool :=
  match t.getLast? with
  | some c => c ∈ ['.', '!', '?', ':']
  | none => false

/-- The `full_title` property (models.py 58-67). -/
def full_title (b : BibliographicInfo) : String :=
  if pyTruthy b.subtitle then
    let t := rstripWs b.title.data
    let t2 := if endsWithPunct t then t else t ++ ['.']
    String.mk (t2 ++ ' ' :: (b.subtitle.getD "").data)
  else b.title

/-! ### Template engine

`format_filename` calls Python `str.format` with a fixed keyword set.  The
engine below models `str.format` on the template syntax of spec section 6:
literal text plus simple `{key}` placeholders.  An unknown key yields
`unknownKey` (Python `KeyError`, reported as `TemplateKeyError`); a `{`
without a matching `}` yields `unclosed` (Python `ValueError`). -/

inductive FmtError where
  | unknownKey (key : String)
  | unclosed
deriving DecidableEq

def lbrace : Char := Char.ofNat 123

def rbrace : Char := Char.ofNat 125

/-- Single pass of the formatter.  The first argument is `none` while copying
literal text and `some key` (reversed) while scanning a placeholder. -/
def fmtAux (lookup : String → Option String) : Option (List Char) → List Char → Except FmtError (List Char)
  | none, [] => .ok []
  | some _, [] => .error .unclosed
  | none, c :: rest =>
    if c = lbrace then fmtAux lookup (some []) rest
    else (fmtAux lookup none rest).map (fun out => c :: out)
  | some key, c :: rest =>
    if c = rbrace then
      match lookup (String.mk key.reverse) with
      | none => .error (.unknownKey (String.mk key.reverse))
      | some v => (fmtAux lookup none rest).map (fun out => v.data ++ out)
    else fmtAux lookup (some (c :: key)) rest

/-- Python `template.format(**kwargs)` with `kwargs` given by `lookup`. -/
def pyFormat (lookup : String → Option String) (template : String) : Except FmtError String :=
  (fmtAux lookup none template.data).map String.mk

/-- The placeholder keys referenced by a template, in order of appearance
(an unclosed trailing fragment references no key). -/
def keysAux : Option (List Char) → List Char → List String
  | _, [] => []
  | none, c :: rest => if c = lbrace then keysAux (some []) rest else keysAux none rest
  | some key, c :: rest =>
    if c = rbrace then String.mk key.reverse :: keysAux none rest
    else keysAux (some (c :: key)) rest

def tmplKeys (template : String) : List String := keysAux none template.data

/-- Every `\x7b` in the template has a matching `\x7d`. -/
def closedAux : Option (List Char) → List Char → Bool
  | none, [] => true
  | some _, [] => false
  | none, c :: rest => if c = lbrace then closedAux (some []) rest else closedAux none rest
  | some key, c :: rest =>
    if c = rbrace then closedAux none rest else closedAux (some (c :: key)) rest

def closedTmpl (template : String) : Bool := closedAux none template.data

/-- Keyword lookup in an association list, as `str.format` looks up `kwargs`. -/
def lookupKw : List (String × String) → String → Option String
  | [], _ => none
  | (k, v) :: rest, q => if q = k then some v else lookupKw rest q

/-- The keyword arguments of `BibliographicInfo.format_filename`
(models.py 79-103): each value resolved (with its `or` default where the
source has one) and passed through `_clean_for_filename`. -/
def docPairs (b : BibliographicInfo) : List (String × String) :=
  [("author_or_editor", cleanS (author_or_editor b)),
   ("author_or_editor_last", cleanS (author_or_editor_last b)),
   ("author", cleanS (pyOr b.author "")),
   ("author_last", cleanS (pyOr b.author_last "")),
   ("editor", cleanS (pyOr b.editor "")),
   ("editor_last", cleanS (pyOr b.editor_last "")),
   ("year", cleanS (pyOr b.year "Unknown Year")),
   ("title", cleanS b.title),
   ("subtitle", cleanS (pyOr b.subtitle "")),
   ("full_title", cleanS (full_title b))]

/-- The `datetime` value of `ScreenshotInfo.format_filename` (models.py 210):
`f"{date} {time}".strip() if date != "Unknown-Date" and time else date`,
computed from the already-cleaned `date` and `time`. -/
def shotDatetime (date time : String) : String :=
  if date ≠ "Unknown-Date" ∧ time ≠ "" then String.mk (trimWs (date.data ++ ' ' :: time.data))
  else date

/-- The keyword arguments of `ScreenshotInfo.format_filename`
(models.py 202-220). -/
def shotPairs (s : ScreenshotInfo) : List (String × String) :=
  let application := cleanS (pyOr s.application "Unknown")
  let date := cleanS (pyOr s.date "Unknown-Date")
  let time := cleanS (pyOr s.time "")
  let content_type := cleanS (pyOr s.content_type "Screenshot")
  let main_subject := cleanS s.main_subject
  [("application", application),
   ("date", date),
   ("time", time),
   ("datetime", shotDatetime date time),
   ("content_type", content_type),
   ("main_subject", main_subject)]

/-- The tagged metadata record of the spec's data model. -/
inductive MetadataRecord where
  | doc (b : BibliographicInfo)
  | shot (s : ScreenshotInfo)

def recordPairs : MetadataRecord → List (String × String)
  | .doc b => docPairs b
  | .shot s => shotPairs s

/-- The recognized placeholder keys of a record's variant. -/
def recognizedKeys (m : MetadataRecord) : List String :=
  (recordPairs m).map Prod.fst

/-- `format_filename` of either variant (models.py 69-105 / 192-222). -/
def format_filename (m : MetadataRecord) (template : String) : Except FmtError String :=
  pyFormat (lookupKw (recordPairs m)) template

/-! ### Collision resolver (cli.py 74-79 and 151-157) -/

/-- Python `new_filename.rsplit('.', 1)[0]`. -/
def stemOf (name : List Char) : List Char := (beforeLastOcc '.' name).getD name

/-- Python `new_filename.split('.')[-1]`: the segment after the last dot
(the whole name when there is no dot). -/
def lastDotSeg (name : List Char) : List Char :=
  (name.reverse.takeWhile (fun c => c ≠ '.')).reverse

/-- The PDF loop's candidate `f"{stem} ({counter}).pdf"` (cli.py 78). -/
def pdfCandidate (stem : List Char) (k : Nat) : List Char :=
  stem ++ (" (" ++ toString k ++ ").pdf").data

/-- The screenshot loop's candidate `f"{stem} ({counter}).{ext}"` (cli.py 156). -/
def shotCandidate (stem ext : List Char) (k : Nat) : List Char :=
  stem ++ (" (" ++ toString k ++ ").").data ++ ext

/-- The `while new_path.exists()` loop, with the filesystem modelled as the
list of existing names in the output directory and an explicit fuel bound
(the Python loop is unbounded). -/
def resolveLoop (fs : List (List Char)) (cand : Nat → List Char) :
    Nat → List Char → Nat → Option (List Char)
  | 0, _, _ => none
  | fuel + 1, path, counter =>
    if path ∈ fs then resolveLoop fs cand fuel (cand counter) (counter + 1)
    else some path

/-- Collision resolution for PDFs (cli.py 74-79): counter starts at 1 and the
extension is the literal `".pdf"`. -/
def resolvePdf (fs : List (List Char)) (newFilename : List Char) (fuel : Nat) :
    Option (List Char) :=
  resolveLoop fs (pdfCandidate (stemOf newFilename)) fuel newFilename 1

/-- Collision resolution for screenshots (cli.py 151-157): counter starts at 1
and the extension is the last dot-segment of the formatted filename. -/
def resolveShot (fs : List (List Char)) (newFilename : List Char) (fuel : Nat) :
    Option (List Char) :=
  resolveLoop fs (shotCandidate (stemOf newFilename) (lastDotSeg newFilename)) fuel newFilename 1

/-! ### File materializer (cli.py 90-111 and 165-186)

The filesystem is the list of existing paths.  Primitive outcomes that depend
on the OS (does the copy raise, does it leave a partial destination, does the
unlink raise, does the rollback unlink raise) are explicit boolean inputs. -/

inductive MatResult where
  | success
  | failedCleaned
  | failedCleanupFailed
  | failedNoDest
deriving DecidableEq

def insertFile (p : List Char) (fs : List (List Char)) : List (List Char) :=
  if p ∈ fs then fs else p :: fs

def removeFile (p : List Char) (fs : List (List Char)) : List (List Char) :=
  fs.filter (fun q => q ≠ p)

/-- The try/except of cli.py 91-108: copy then delete inside the `try`;
on any exception, if the destination exists, try to unlink it. -/
def materialize (fs : List (List Char)) (src dst : List Char)
    (copyOk copyPartial deleteOk cleanupOk : Bool) : List (List Char) × MatResult :=
  let attempt : List (List Char) × Bool :=
    if copyOk then
      let fs1 := insertFile dst fs
      if deleteOk then (removeFile src fs1, false) else (fs1, true)
    else ((if copyPartial then insertFile dst fs else fs), true)
  match attempt with
  | (fs1, false) => (fs1, .success)
  | (fs1, true) =>
    if dst ∈ fs1 then
      if cleanupOk then (removeFile dst fs1, .failedCleaned)
      else (fs1, .failedCleanupFailed)
    else (fs1, .failedNoDest)

inductive ProcOutcome where
  | fuelOut
  | dryRunReport (dst : List Char)
  | executed (dst : List Char) (r : MatResult)
deriving DecidableEq

/-- `process_pdf` from collision resolution on (cli.py 74-111): the formatted
filename is an input (formatting is pure and modelled separately); in dry-run
mode only the report is produced. -/
def process_pdf (fs : List (List Char)) (srcName newFilename : List Char) (fuel : Nat)
    (dryRun copyOk copyPartial deleteOk cleanupOk : Bool) :
    List (List Char) × ProcOutcome :=
  match resolvePdf fs newFilename fuel with
  | none => (fs, .fuelOut)
  | some dst =>
    if dryRun then (fs, .dryRunReport dst)
    else
      let res := materialize fs srcName dst copyOk copyPartial deleteOk cleanupOk
      (res.1, .executed dst res.2)

/-- `process_screenshot` from collision resolution on (cli.py 151-186). -/
def process_screenshot (fs : List (List Char)) (srcName newFilename : List Char) (fuel : Nat)
    (dryRun copyOk copyPartial deleteOk cleanupOk : Bool) :
    List (List Char) × ProcOutcome :=
  match resolveShot fs newFilename fuel with
  | none => (fs, .fuelOut)
  | some dst =>
    if dryRun then (fs, .dryRunReport dst)
    else
      let res := materialize fs srcName dst copyOk copyPartial deleteOk cleanupOk
      (res.1, .executed dst res.2)

/-! ### Screenshot template extension substitution (cli.py 145-148) -/

/-- Python `s.replace('.png', rep)`: replace every leftmost non-overlapping
occurrence of `".png"`. -/
def replacePng (rep : List Char) : List Char → List Char
  | '.' :: 'p' :: 'n' :: 'g' :: rest => rep ++ replacePng rep rest
  | c :: rest => c :: replacePng rep rest
  | [] => []

/-- Python `Path(name).suffix`: the final extension including its dot, empty
for no dot, a leading dot only, or a trailing dot. -/
def pySuffix (name : List Char) : List Char :=
  let ext := name.reverse.takeWhile (fun c => c ≠ '.')
  if ext.length + 1 < name.length ∧ ext.length > 0 then '.' :: ext.reverse else []

/-- Python `str.lower()`, modelled on ASCII via `Char.toLower`. -/
def lowerStr (cs : List Char) : List Char := cs.map Char.toLower

/-- cli.py 146-147: `original_ext = image_path.suffix.lower()` followed by
`config['screenshot_template'].replace('.png', original_ext)`. -/
def template_with_ext (template : String) (srcName : String) : String :=
  String.mk (replacePng (lowerStr (pySuffix srcName.data)) template.data)

/-! ### Model construction (pydantic validation)

Modelled from pydantic semantics for the field declarations at models.py
28-31 and 187-190: a required field (`Field(...)`) of plain type `str` must
be present, and any string - including the empty string - passes validation;
no non-emptiness constraint is declared. -/

def validateRequiredStr : Option String → Except String String
  | none => .error "Field required"
  | some s => .ok s

def mkBibliographicInfo (author author_last editor editor_last year title subtitle : Option String) :
    Except String BibliographicInfo :=
  match validateRequiredStr title with
  | .error e => .error e
  | .ok t => .ok ⟨author, author_last, editor, editor_last, year, t, subtitle⟩

def mkScreenshotInfo (application date time content_type main_subject : Option String) :
    Except String ScreenshotInfo :=
  match validateRequiredStr main_subject with
  | .error e => .error e
  | .ok m => .ok ⟨application, date, time, content_type, m⟩

/-- `true` when the list contains no occurrence of `".png"`. -/
def pngFree : List Char → Bool
  | [] => true
  | c :: rest => if c = '.' ∧ rest.take 3 = ['p', 'n', 'g'] then false else pngFree rest

/-- The claim C2 counterexample input: 199 `A`s, a space, 10 `B`s.  Sanitizing
once truncates at the space, yielding 199 `A`s plus `"..."` (202 characters);
sanitizing that again truncates without a space, appending another `"..."`
after the 200-character hard cut. -/
def cxC2 : String := String.mk (List.replicate 199 'A' ++ ' ' :: List.replicate 10 'B')

/-! ### Lemmas about character removal -/

theorem mem_removeChar {c a : Char} {cs : List Char} :
    c ∈ removeChar a cs ↔ c ∈ cs ∧ c ≠ a := by
  simp [removeChar, List.mem_filter]

theorem foldl_removeChar_mem {c : Char} (L : List Char) (cs : List Char) :
    c ∈ L.foldl (fun acc x => removeChar x acc) cs ↔ c ∈ cs ∧ ∀ x ∈ L, c ≠ x := by
  induction L generalizing cs with
  | nil => simp
  | cons a L ih =>
    simp only [List.foldl_cons, ih, mem_removeChar, List.mem_cons]
    constructor
    · rintro ⟨⟨h1, h2⟩, h3⟩
      exact ⟨h1, fun x hx => hx.elim (fun e => e ▸ h2) (h3 x)⟩
    · rintro ⟨h1, h2⟩
      exact ⟨⟨h1, h2 a (Or.inl rfl)⟩, fun x hx => h2 x (Or.inr hx)⟩

theorem foldl_removeChar_eq_self (L : List Char) (cs : List Char)
    (h : ∀ c ∈ cs, ∀ x ∈ L, c ≠ x) :
    L.foldl (fun acc x => removeChar x acc) cs = cs := by
  induction L generalizing cs with
  | nil => rfl
  | cons a L ih =>
    have h1 : removeChar a cs = cs := by
      apply List.filter_eq_self.mpr
      intro c hc
      simpa using h c hc a (List.mem_cons_self a L)
    rw [List.foldl_cons, h1]
    exact ih cs fun c hc x hx => h c hc x (List.mem_cons_of_mem a hx)

theorem mem_removeIllegal {c : Char} {cs : List Char} :
    c ∈ removeIllegal cs ↔ c ∈ cs ∧ c ∉ illegalChars := by
  rw [removeIllegal, foldl_removeChar_mem]
  constructor
  · rintro ⟨h1, h2⟩
    exact ⟨h1, fun hm => h2 c hm rfl⟩
  · rintro ⟨h1, h2⟩
    exact ⟨h1, fun x hx he => h2 (he ▸ hx)⟩

theorem removeIllegal_eq_self {cs : List Char} (h : ∀ c ∈ cs, c ∉ illegalChars) :
    removeIllegal cs = cs :=
  foldl_removeChar_eq_self _ cs fun c hc x hx he => h c hc (he ▸ hx)

/-! ### Lemmas about `pySplit` and `joinWords` -/

/-- Every word produced by `wordsAux` is nonempty, whitespace-free, and its
characters come from the accumulator or the remaining input. -/
theorem wordsAux_words (cs : List Char) :
    ∀ acc, (∀ c ∈ acc, c.isWhitespace = false) →
    ∀ w ∈ wordsAux acc cs,
      w ≠ [] ∧ (∀ c ∈ w, c.isWhitespace = false) ∧ (∀ c ∈ w, c ∈ acc ∨ c ∈ cs) := by
  induction cs with
  | nil =>
    intro acc hacc w hw
    rw [wordsAux] at hw
    by_cases he : acc = []
    · simp [he] at hw
    · simp only [if_neg he, List.mem_singleton] at hw
      subst hw
      refine ⟨by simpa using he, ?_, ?_⟩
      · intro c hc; exact hacc c (List.mem_reverse.mp hc)
      · intro c hc; exact Or.inl (List.mem_reverse.mp hc)
  | cons a rest ih =>
    intro acc hacc w hw
    rw [wordsAux] at hw
    by_cases hws : a.isWhitespace
    · rw [if_pos hws] at hw
      by_cases he : acc = []
      · rw [if_pos he] at hw
        have := ih [] (by simp) w hw
        exact ⟨this.1, this.2.1, fun c hc => Or.inr (List.mem_cons_of_mem a ((this.2.2 c hc).resolve_left (by simp)))⟩
      · rw [if_neg he] at hw
        rcases List.mem_cons.mp hw with h | h
        · subst h
          refine ⟨by simpa using he, ?_, ?_⟩
          · intro c hc; exact hacc c (List.mem_reverse.mp hc)
          · intro c hc; exact Or.inl (List.mem_reverse.mp hc)
        · have := ih [] (by simp) w h
          exact ⟨this.1, this.2.1, fun c hc => Or.inr (List.mem_cons_of_mem a ((this.2.2 c hc).resolve_left (by simp)))⟩
    · rw [if_neg hws] at hw
      have := ih (a :: acc) (by
        intro c hc
        rcases List.mem_cons.mp hc with h | h
        · subst h; simpa using hws
        · exact hacc c h) w hw
      refine ⟨this.1, this.2.1, fun c hc => ?_⟩
      rcases this.2.2 c hc with h | h
      · rcases List.mem_cons.mp h with h' | h'
        · exact Or.inr (by rw [h']; exact List.mem_cons_self a rest)
        · exact Or.inl h'
      · exact Or.inr (List.mem_cons_of_mem a h)

theorem pySplit_words (cs : List Char) :
    ∀ w ∈ pySplit cs,
      w ≠ [] ∧ (∀ c ∈ w, c.isWhitespace = false) ∧ (∀ c ∈ w, c ∈ cs) := by
  intro w hw
  have := wordsAux_words cs [] (by simp) w hw
  exact ⟨this.1, this.2.1, fun c hc => (this.2.2 c hc).resolve_left (by simp)⟩

theorem joinWords_cons_cons (w v : List Char) (rest : List (List Char)) :
    joinWords (w :: v :: rest) = w ++ ' ' :: joinWords (v :: rest) := rfl

theorem mem_joinWords {c : Char} {l : List (List Char)} (h : c ∈ joinWords l) :
    (∃ w ∈ l, c ∈ w) ∨ c = ' ' := by
  induction l with
  | nil => simp [joinWords] at h
  | cons w ws ih =>
    cases ws with
    | nil =>
      rw [joinWords] at h
      exact Or.inl ⟨w, List.mem_singleton_self w, h⟩
    | cons v rest =>
      rw [joinWords_cons_cons] at h
      rcases List.mem_append.mp h with h | h
      · exact Or.inl ⟨w, List.mem_cons_self _ _, h⟩
      · rcases List.mem_cons.mp h with h | h
        · exact Or.inr h
        · rcases ih h with ⟨u, hu, hc⟩ | h
          · exact Or.inl ⟨u, List.mem_cons_of_mem w hu, hc⟩
          · exact Or.inr h

theorem joinWords_ne_nil {v : List Char} {rest : List (List Char)} (hv : v ≠ []) :
    joinWords (v :: rest) ≠ [] := by
  cases rest with
  | nil => simpa [joinWords] using hv
  | cons u rest' =>
    rw [joinWords_cons_cons]
    cases v with
    | nil => exact absurd rfl hv
    | cons a t => simp

/-! ### Lemmas about `noDoubleWsB`, heads, lasts and trimming -/

theorem noDoubleWsB_cons_cons {a b : Char} {rest : List Char} :
    noDoubleWsB (a :: b :: rest) =
      ((!(a.isWhitespace && b.isWhitespace)) && noDoubleWsB (b :: rest)) := rfl

theorem noDoubleWsB_of_nonws {l : List Char} (h : ∀ c ∈ l, c.isWhitespace = false) :
    noDoubleWsB l = true := by
  induction l with
  | nil => rfl
  | cons a t ih =>
    cases t with
    | nil => rfl
    | cons b t' =>
      rw [noDoubleWsB_cons_cons]
      have ha := h a (List.mem_cons_self _ _)
      have := ih fun c hc => h c (List.mem_cons_of_mem a hc)
      simp [ha, this]

theorem noDoubleWsB_append_left {x y : List Char} (h : noDoubleWsB (x ++ y) = true) :
    noDoubleWsB x = true := by
  induction x with
  | nil => rfl
  | cons a t ih =>
    cases t with
    | nil => rfl
    | cons b t' =>
      rw [List.cons_append, List.cons_append, noDoubleWsB_cons_cons] at h
      rw [noDoubleWsB_cons_cons]
      simp only [Bool.and_eq_true] at h
      obtain ⟨h1, h2⟩ := h
      rw [← List.cons_append] at h2
      simp [h1, ih h2]

theorem noDoubleWsB_append_nonws {x y : List Char} (hx : noDoubleWsB x = true)
    (hy : ∀ c ∈ y, c.isWhitespace = false) : noDoubleWsB (x ++ y) = true := by
  induction x with
  | nil => simpa using noDoubleWsB_of_nonws hy
  | cons a t ih =>
    cases t with
    | nil =>
      cases y with
      | nil => rfl
      | cons b y' =>
        rw [List.singleton_append, noDoubleWsB_cons_cons]
        have hb := hy b (List.mem_cons_self _ _)
        have hres : noDoubleWsB (b :: y') = true := noDoubleWsB_of_nonws hy
        simp [hb, hres]
    | cons b t' =>
      rw [noDoubleWsB_cons_cons] at hx
      simp only [Bool.and_eq_true] at hx
      obtain ⟨h1, h2⟩ := hx
      have h3 := ih h2
      simp only [List.cons_append] at h3 ⊢
      rw [noDoubleWsB_cons_cons]
      simp [h1, h3]

/-- The character right before a whitespace character is not whitespace,
in a list with no double whitespace. -/
theorem lastNotWs_of_noDoubleWs {x : List Char} {c : Char} {y : List Char}
    (h : noDoubleWsB (x ++ c :: y) = true) (hc : c.isWhitespace = true) :
    lastNotWs x := by
  induction x with
  | nil => intro d hd; simp at hd
  | cons a t ih =>
    cases t with
    | nil =>
      intro d hd
      simp only [List.getLast?_singleton, Option.some.injEq] at hd
      subst hd
      rw [List.singleton_append, noDoubleWsB_cons_cons] at h
      simp only [Bool.and_eq_true] at h
      obtain ⟨h1, _⟩ := h
      rw [hc] at h1
      simpa using h1
    | cons b t' =>
      intro d hd
      simp only [List.cons_append] at h
      rw [noDoubleWsB_cons_cons] at h
      simp only [Bool.and_eq_true] at h
      obtain ⟨_, h2⟩ := h
      have h2' : noDoubleWsB ((b :: t') ++ c :: y) = true := by
        simpa [List.cons_append] using h2
      rw [List.getLast?_cons_cons] at hd
      exact ih h2' d hd

theorem headNotWs_append {x y : List Char} (hx : x ≠ []) (h : headNotWs x) :
    headNotWs (x ++ y) := by
  cases x with
  | nil => exact absurd rfl hx
  | cons a t =>
    intro c hc
    simp only [List.cons_append, List.head?_cons, Option.some.injEq] at hc
    exact hc ▸ h a rfl

theorem dropWhile_eq_self_of_headNotWs {cs : List Char} (h : headNotWs cs) :
    cs.dropWhile Char.isWhitespace = cs := by
  cases cs with
  | nil => rfl
  | cons a t =>
    rw [List.dropWhile_cons]
    have := h a rfl
    simp [this]

theorem trimWs_eq_self {cs : List Char} (h1 : headNotWs cs) (h2 : lastNotWs cs) :
    trimWs cs = cs := by
  rw [trimWs, dropWhile_eq_self_of_headNotWs h1]
  have hrev : headNotWs cs.reverse := by
    intro c hc
    rw [List.head?_reverse] at hc
    exact h2 c hc
  rw [dropWhile_eq_self_of_headNotWs hrev, List.reverse_reverse]

/-! ### Structure of `collapseWs` output -/

theorem wordList_pySplit (cs : List Char) : WordList (pySplit cs) :=
  fun w hw => ⟨(pySplit_words cs w hw).1, (pySplit_words cs w hw).2.1⟩

/-- Prepending a whitespace-free word preserves absence of double whitespace:
the boundary pair is harmless because its left element is not whitespace. -/
theorem ndw_prepend_word (rest : List Char) (hrest : noDoubleWsB rest = true) :
    ∀ w : List Char, (∀ c ∈ w, c.isWhitespace = false) →
      noDoubleWsB (w ++ rest) = true := by
  intro w
  induction w with
  | nil => intro _; simpa using hrest
  | cons a w' ih =>
    intro hw
    have ha : a.isWhitespace = false := hw a (List.mem_cons_self _ _)
    have hw' : ∀ c ∈ w', c.isWhitespace = false :=
      fun c hc => hw c (List.mem_cons_of_mem a hc)
    cases hconc : w' ++ rest with
    | nil => rw [List.cons_append, hconc]; rfl
    | cons b t =>
      have htail : noDoubleWsB (b :: t) = true := hconc ▸ ih hw'
      rw [List.cons_append, hconc, noDoubleWsB_cons_cons]
      simp [ha, htail]

theorem headNotWs_joinWords {l : List (List Char)} (h : WordList l) :
    headNotWs (joinWords l) := by
  cases l with
  | nil => intro c hc; simp [joinWords] at hc
  | cons w ws =>
    have hw := h w (List.mem_cons_self _ _)
    obtain ⟨a, w', hweq⟩ : ∃ a w', w = a :: w' := by
      cases w with
      | nil => exact absurd rfl hw.1
      | cons a w' => exact ⟨a, w', rfl⟩
    have ha : a.isWhitespace = false := hw.2 a (by rw [hweq]; exact List.mem_cons_self _ _)
    cases ws with
    | nil =>
      intro c hc
      rw [joinWords, hweq] at hc
      simp only [List.head?_cons, Option.some.injEq] at hc
      exact hc ▸ ha
    | cons v rest =>
      intro c hc
      rw [joinWords_cons_cons, hweq, List.cons_append] at hc
      simp only [List.head?_cons, Option.some.injEq] at hc
      exact hc ▸ ha

theorem noDoubleWsB_joinWords {l : List (List Char)} (h : WordList l) :
    noDoubleWsB (joinWords l) = true := by
  induction l with
  | nil => rfl
  | cons w ws ih =>
    have hw := (h w (List.mem_cons_self _ _)).2
    cases ws with
    | nil => exact noDoubleWsB_of_nonws hw
    | cons v rest =>
      rw [joinWords_cons_cons]
      have hrest : WordList (v :: rest) := fun u hu => h u (List.mem_cons_of_mem w hu)
      have hjoin : noDoubleWsB (joinWords (v :: rest)) = true := ih hrest
      have hhead : headNotWs (joinWords (v :: rest)) := headNotWs_joinWords hrest
      have htail : noDoubleWsB (' ' :: joinWords (v :: rest)) = true := by
        cases hj : joinWords (v :: rest) with
        | nil => rfl
        | cons d t =>
          rw [noDoubleWsB_cons_cons]
          have hd : d.isWhitespace = false := hhead d (by rw [hj]; rfl)
          rw [← hj]
          simp [hd, hjoin]
      exact ndw_prepend_word _ htail w hw

theorem mem_of_getLast? {l : List Char} {c : Char} (h : l.getLast? = some c) : c ∈ l := by
  induction l with
  | nil => simp at h
  | cons a t ih =>
    cases t with
    | nil =>
      simp only [List.getLast?_singleton, Option.some.injEq] at h
      simp [h]
    | cons b t' =>
      rw [List.getLast?_cons_cons] at h
      exact List.mem_cons_of_mem a (ih h)

theorem lastNotWs_joinWords {l : List (List Char)} (h : WordList l) :
    lastNotWs (joinWords l) := by
  induction l with
  | nil => intro c hc; simp [joinWords] at hc
  | cons w ws ih =>
    cases ws with
    | nil =>
      intro c hc
      rw [joinWords] at hc
      exact (h w (List.mem_singleton_self w)).2 c (mem_of_getLast? hc)
    | cons v rest =>
      intro c hc
      rw [joinWords_cons_cons] at hc
      have hrest : WordList (v :: rest) := fun u hu => h u (List.mem_cons_of_mem w hu)
      have hne : joinWords (v :: rest) ≠ [] :=
        joinWords_ne_nil (hrest v (List.mem_cons_self _ _)).1
      obtain ⟨d, t, hj⟩ : ∃ d t, joinWords (v :: rest) = d :: t := by
        cases hj : joinWords (v :: rest) with
        | nil => exact absurd hj hne
        | cons d t => exact ⟨d, t, rfl⟩
      rw [hj] at hc
      rw [List.getLast?_append_of_ne_nil _ (by simp), List.getLast?_cons_cons] at hc
      exact ih hrest c (by rw [hj]; exact hc)

theorem collapseWs_noDoubleWs (cs : List Char) : noDoubleWsB (collapseWs cs) = true :=
  noDoubleWsB_joinWords (wordList_pySplit cs)

theorem collapseWs_headNotWs (cs : List Char) : headNotWs (collapseWs cs) :=
  headNotWs_joinWords (wordList_pySplit cs)

theorem collapseWs_lastNotWs (cs : List Char) : lastNotWs (collapseWs cs) :=
  lastNotWs_joinWords (wordList_pySplit cs)

theorem mem_collapseWs {c : Char} {cs : List Char} (h : c ∈ collapseWs cs) :
    c ∈ cs ∨ c = ' ' := by
  rcases mem_joinWords h with ⟨w, hw, hc⟩ | h
  · exact Or.inl ((pySplit_words cs w hw).2.2 c hc)
  · exact Or.inr h

/-- Any whitespace character in collapsed output is a plain space. -/
theorem collapseWs_ws_eq_space {c : Char} {cs : List Char} (h : c ∈ collapseWs cs)
    (hws : c.isWhitespace = true) : c = ' ' := by
  rcases mem_joinWords h with ⟨w, hw, hc⟩ | h
  · have := (pySplit_words cs w hw).2.1 c hc
    rw [this] at hws
    exact absurd hws (by simp)
  · exact h

/-! ### `pySplit` is a left inverse of `joinWords` on word lists -/

theorem wordsAux_append_word (w : List Char) (hw : ∀ c ∈ w, c.isWhitespace = false) :
    ∀ acc t, wordsAux acc (w ++ t) = wordsAux (w.reverse ++ acc) t := by
  induction w with
  | nil => intro acc t; simp
  | cons a w' ih =>
    intro acc t
    have ha : a.isWhitespace = false := hw a (List.mem_cons_self _ _)
    have hw' : ∀ c ∈ w', c.isWhitespace = false :=
      fun c hc => hw c (List.mem_cons_of_mem a hc)
    rw [List.cons_append, wordsAux, if_neg (by simp [ha]), ih hw' (a :: acc) t]
    congr 1
    simp

theorem wordsAux_space (acc t : List Char) :
    wordsAux acc (' ' :: t) =
      if acc = [] then wordsAux [] t else acc.reverse :: wordsAux [] t := by
  rw [wordsAux, if_pos (by decide)]

theorem pySplit_joinWords {l : List (List Char)} (h : WordList l) :
    pySplit (joinWords l) = l := by
  induction l with
  | nil => rfl
  | cons w ws ih =>
    have hw := h w (List.mem_cons_self _ _)
    cases ws with
    | nil =>
      show wordsAux [] (joinWords [w]) = [w]
      have h2 : wordsAux [] w = wordsAux (w.reverse ++ []) [] := by
        conv_lhs => rw [← List.append_nil w]
        exact wordsAux_append_word w hw.2 [] []
      rw [joinWords, h2, wordsAux]
      rw [if_neg (by simp [hw.1]), List.append_nil, List.reverse_reverse]
    | cons v rest =>
      have hrest : WordList (v :: rest) := fun u hu => h u (List.mem_cons_of_mem w hu)
      show wordsAux [] (joinWords (w :: v :: rest)) = w :: v :: rest
      rw [joinWords_cons_cons, wordsAux_append_word w hw.2, wordsAux_space]
      rw [if_neg (by simp [hw.1]), List.append_nil, List.reverse_reverse]
      exact congrArg (w :: ·) (ih hrest)

theorem collapseWs_idem (cs : List Char) : collapseWs (collapseWs cs) = collapseWs cs := by
  show joinWords (pySplit (joinWords (pySplit cs))) = joinWords (pySplit cs)
  rw [pySplit_joinWords (wordList_pySplit cs)]

/-! ### Lemmas about `beforeLastOcc` and truncation -/

theorem beforeLastOcc_eq_none {sep : Char} {t : List Char} (h : sep ∉ t) :
    beforeLastOcc sep t = none := by
  induction t with
  | nil => rfl
  | cons c rest ih =>
    rw [beforeLastOcc, ih (fun hm => h (List.mem_cons_of_mem c hm))]
    rw [if_neg (by rintro rfl; exact h (List.mem_cons_self _ _))]

theorem beforeLastOcc_append {sep : Char} {b : List Char} (hb : sep ∉ b) :
    ∀ a, beforeLastOcc sep (a ++ sep :: b) = some a := by
  intro a
  induction a with
  | nil =>
    rw [List.nil_append, beforeLastOcc, beforeLastOcc_eq_none hb, if_pos rfl]
  | cons c a' ih =>
    rw [List.cons_append, beforeLastOcc, ih]

theorem not_mem_of_beforeLastOcc_none {sep : Char} {t : List Char}
    (h : beforeLastOcc sep t = none) : sep ∉ t := by
  induction t with
  | nil => simp
  | cons c rest ih =>
    rw [beforeLastOcc] at h
    cases hr : beforeLastOcc sep rest with
    | some q => rw [hr] at h; exact Option.noConfusion h
    | none =>
      rw [hr] at h
      by_cases hc : c = sep
      · rw [if_pos hc] at h; exact Option.noConfusion h
      · rw [if_neg hc] at h
        intro hm
        rcases List.mem_cons.mp hm with hm | hm
        · exact hc hm.symm
        · exact ih hr hm

/-- Whatever `beforeLastOcc` returns is an initial segment of the input,
separated from the rest by a final occurrence of `sep`. -/
theorem beforeLastOcc_spec {sep : Char} {t p : List Char}
    (h : beforeLastOcc sep t = some p) :
    ∃ b, t = p ++ sep :: b ∧ sep ∉ b := by
  induction t generalizing p with
  | nil => simp [beforeLastOcc] at h
  | cons c rest ih =>
    rw [beforeLastOcc] at h
    cases hr : beforeLastOcc sep rest with
    | some q =>
      rw [hr] at h
      simp only [Option.some.injEq] at h
      obtain ⟨b, hb1, hb2⟩ := ih hr
      exact ⟨b, by rw [← h, hb1, List.cons_append], hb2⟩
    | none =>
      rw [hr] at h
      by_cases hc : c = sep
      · rw [if_pos hc] at h
        simp only [Option.some.injEq] at h
        exact ⟨rest, by rw [← h, List.nil_append, hc], not_mem_of_beforeLastOcc_none hr⟩
      · rw [if_neg hc] at h
        exact Option.noConfusion h

/-! ### The two branches of `_clean_for_filename` -/

theorem head?_take {l : List Char} {n : Nat} (hn : 0 < n) : (l.take n).head? = l.head? := by
  cases l with
  | nil => simp
  | cons c t =>
    cases n with
    | zero => exact absurd hn (by simp)
    | succ n => simp [List.take_succ_cons]

theorem headNotWs_of_append {x y : List Char} (hx : x ≠ [])
    (h : headNotWs (x ++ y)) : headNotWs x := by
  cases x with
  | nil => exact absurd rfl hx
  | cons a t =>
    intro c hc
    simp only [List.head?_cons, Option.some.injEq] at hc
    exact h c (by simp [hc])

theorem getLast?_append_dots (x : List Char) : (x ++ dots).getLast? = some '.' := by
  rw [List.getLast?_append_of_ne_nil _ (by simp [dots])]
  rfl

theorem lastNotWs_append_dots (x : List Char) : lastNotWs (x ++ dots) := by
  intro c hc
  rw [getLast?_append_dots] at hc
  simp only [Option.some.injEq] at hc
  subst hc
  decide

/-- Structure of the truncated segment `text[:200].rsplit(' ', 1)[0]` when the
collapsed text `m` is longer than 200 characters: it is nonempty, starts and
ends with non-whitespace, has no double whitespace, is at most 200 characters
long, and draws all its characters from `m`. -/
theorem dropLastSpaceSeg_struct {m : List Char} (hlen : m.length > 200)
    (hndw : noDoubleWsB m = true) (hhead : headNotWs m)
    (hwsp : ∀ c ∈ m, c.isWhitespace = true → c = ' ') :
    dropLastSpaceSeg (m.take 200) ≠ [] ∧
    headNotWs (dropLastSpaceSeg (m.take 200)) ∧
    lastNotWs (dropLastSpaceSeg (m.take 200)) ∧
    noDoubleWsB (dropLastSpaceSeg (m.take 200)) = true ∧
    (dropLastSpaceSeg (m.take 200)).length ≤ 200 ∧
    ∀ c ∈ dropLastSpaceSeg (m.take 200), c ∈ m := by
  set t := m.take 200 with ht
  have htlen : t.length = 200 := by
    rw [ht, List.length_take]
    omega
  have htsub : ∀ c ∈ t, c ∈ m := fun c hc => List.take_subset 200 m hc
  have htndw : noDoubleWsB t = true := by
    have := List.take_append_drop 200 m
    exact noDoubleWsB_append_left (this ▸ hndw)
  have hthead : headNotWs t := by
    intro c hc
    rw [ht, head?_take (by omega)] at hc
    exact hhead c hc
  rw [dropLastSpaceSeg]
  cases hblo : beforeLastOcc ' ' t with
  | none =>
    -- no space in the first 200 characters: hard cut
    have hnosp : ' ' ∉ t := not_mem_of_beforeLastOcc_none hblo
    have htnws : ∀ c ∈ t, c.isWhitespace = false := by
      intro c hc
      by_contra hcon
      have : c.isWhitespace = true := by
        cases hb : c.isWhitespace
        · exact absurd hb hcon
        · rfl
      exact hnosp ((hwsp c (htsub c hc) this) ▸ hc)
    simp only [Option.getD_none]
    refine ⟨by intro h0; rw [h0] at htlen; simp at htlen, hthead, ?_, ?_, by omega, htsub⟩
    · intro c hc
      exact htnws c (mem_of_getLast? hc)
    · exact noDoubleWsB_of_nonws htnws
  | some a =>
    obtain ⟨b, hab, hbns⟩ := beforeLastOcc_spec hblo
    simp only [Option.getD_some]
    have handw : noDoubleWsB a = true := noDoubleWsB_append_left (hab ▸ htndw)
    have halast : lastNotWs a :=
      lastNotWs_of_noDoubleWs (hab ▸ htndw) (by decide)
    have hane : a ≠ [] := by
      intro h0
      rw [h0, List.nil_append] at hab
      have := hthead ' ' (by rw [hab]; rfl)
      simp at this
    have hahead : headNotWs a := headNotWs_of_append hane (hab ▸ hthead)
    have hasub : ∀ c ∈ a, c ∈ m := by
      intro c hc
      exact htsub c (by rw [hab]; exact List.mem_append_left _ hc)
    have halen : a.length ≤ 200 := by
      have : t.length = a.length + 1 + b.length := by
        rw [hab]; simp; omega
      omega
    exact ⟨hane, hahead, halast, handw, halen, hasub⟩

/-- When no truncation fires, `_clean_for_filename` is exactly the collapse
of the illegal-character removal. -/
theorem clean_eq_of_le {cs : List Char}
    (h : (collapseWs (removeIllegal cs)).length ≤ 200) :
    clean_for_filename cs = collapseWs (removeIllegal cs) := by
  rw [clean_for_filename, truncate200, if_neg (by omega)]
  exact trimWs_eq_self (collapseWs_headNotWs _) (collapseWs_lastNotWs _)

/-- When truncation fires, `_clean_for_filename` is the segment before the
last space of the first 200 collapsed characters (or those 200 characters
themselves when they contain no space), followed by `'...'`. -/
theorem clean_eq_of_gt {cs : List Char}
    (h : (collapseWs (removeIllegal cs)).length > 200) :
    clean_for_filename cs =
      dropLastSpaceSeg ((collapseWs (removeIllegal cs)).take 200) ++ dots := by
  rw [clean_for_filename, truncate200, if_pos (by omega)]
  obtain ⟨hne, hhead, _, _, _, _⟩ :=
    dropLastSpaceSeg_struct h (collapseWs_noDoubleWs _) (collapseWs_headNotWs _)
      (fun c hc hw => collapseWs_ws_eq_space hc hw)
  exact trimWs_eq_self (headNotWs_append hne hhead) (lastNotWs_append_dots _)

theorem clean_no_illegal {cs : List Char} : ∀ c ∈ clean_for_filename cs, c ∉ illegalChars := by
  intro c hc
  by_cases h : (collapseWs (removeIllegal cs)).length ≤ 200
  · rw [clean_eq_of_le h] at hc
    rcases mem_collapseWs hc with h1 | h1
    · exact (mem_removeIllegal.mp h1).2
    · subst h1; decide
  · rw [clean_eq_of_gt (show (collapseWs (removeIllegal cs)).length > 200 by omega)] at hc
    rcases List.mem_append.mp hc with h1 | h1
    · obtain ⟨_, _, _, _, _, hsub⟩ :=
        dropLastSpaceSeg_struct (m := collapseWs (removeIllegal cs)) (by omega)
          (collapseWs_noDoubleWs _) (collapseWs_headNotWs _)
          (fun c hc hw => collapseWs_ws_eq_space hc hw)
      rcases mem_collapseWs (hsub c h1) with h2 | h2
      · exact (mem_removeIllegal.mp h2).2
      · subst h2; decide
    · have hdot : c = '.' := by simpa [dots] using h1
      subst hdot; decide

/-- On inputs whose collapsed, illegal-free form is at most 200 characters
(no truncation), `_clean_for_filename` is idempotent. -/
theorem clean_idem_of_le {cs : List Char}
    (h : (collapseWs (removeIllegal cs)).length ≤ 200) :
    clean_for_filename (clean_for_filename cs) = clean_for_filename cs := by
  rw [clean_eq_of_le h]
  have hri : removeIllegal (collapseWs (removeIllegal cs)) = collapseWs (removeIllegal cs) := by
    apply removeIllegal_eq_self
    intro c hc
    rcases mem_collapseWs hc with h1 | h1
    · exact (mem_removeIllegal.mp h1).2
    · subst h1; decide
  have hcl : collapseWs (removeIllegal (collapseWs (removeIllegal cs))) =
      collapseWs (removeIllegal cs) := by
    rw [hri, collapseWs_idem]
  rw [clean_eq_of_le (by rw [hcl]; exact h), hcl]

/-! ### Filesystem helper lemmas -/

theorem mem_insertFile {p q : List Char} {fs : List (List Char)} :
    q ∈ insertFile p fs ↔ q ∈ fs ∨ q = p := by
  unfold insertFile
  by_cases h : p ∈ fs
  · rw [if_pos h]
    constructor
    · exact Or.inl
    · rintro (hq | rfl)
      · exact hq
      · exact h
  · rw [if_neg h]
    constructor
    · intro hq
      rcases List.mem_cons.mp hq with rfl | hq
      · exact Or.inr rfl
      · exact Or.inl hq
    · rintro (hq | rfl)
      · exact List.mem_cons_of_mem _ hq
      · exact List.mem_cons_self _ _

theorem mem_removeFile {p q : List Char} {fs : List (List Char)} :
    q ∈ removeFile p fs ↔ q ∈ fs ∧ q ≠ p := by
  simp [removeFile, List.mem_filter]

theorem removeFile_insert_new {p : List Char} {fs : List (List Char)} (h : p ∉ fs) :
    removeFile p (insertFile p fs) = fs := by
  unfold insertFile removeFile
  rw [if_neg h, List.filter_cons, if_neg (by simp)]
  apply List.filter_eq_self.mpr
  intro q hq
  have : q ≠ p := fun he => h (he ▸ hq)
  simpa using this

/-! ### Claim theorems -/

/-- C1: in execute mode, when the copy succeeds, the deletion of the source
fails, and the rollback unlink succeeds, the materializer deletes the newly
created destination, restoring the pre-operation state: the source is intact,
no destination exists, and at most one copy of the file remains - never two.
When the initial copy fails, the source remains untouched (whether or not a
partial destination was created and cleaned up). -/
theorem claim_C1 (fs : List (List Char)) (src dst : List Char) (cp dOk clOk : Bool)
    (hsrc : src ∈ fs) (hdst : dst ∉ fs) :
    ((materialize fs src dst true cp false true).1 = fs ∧
     src ∈ (materialize fs src dst true cp false true).1 ∧
     dst ∉ (materialize fs src dst true cp false true).1 ∧
     (materialize fs src dst true cp false true).2 = .failedCleaned) ∧
    src ∈ (materialize fs src dst false cp dOk clOk).1 := by
  have hne : src ≠ dst := fun h => hdst (h ▸ hsrc)
  constructor
  · have hmat : materialize fs src dst true cp false true =
        (removeFile dst (insertFile dst fs), .failedCleaned) := by
      unfold materialize
      simp [mem_insertFile]
    rw [hmat, removeFile_insert_new hdst]
    exact ⟨rfl, hsrc, hdst, rfl⟩
  · unfold materialize
    simp only [Bool.false_eq_true, if_false]
    set fs1 := if cp = true then insertFile dst fs else fs with hfs1
    have hsrc1 : src ∈ fs1 := by
      rw [hfs1]
      cases cp
      · simpa using hsrc
      · simp only [if_pos rfl]
        exact mem_insertFile.mpr (Or.inl hsrc)
    by_cases hd : dst ∈ fs1
    · rw [if_pos hd]
      cases clOk
      · simpa using hsrc1
      · simp only [if_pos rfl]
        exact mem_removeFile.mpr ⟨hsrc1, hne⟩
    · rw [if_neg hd]
      exact hsrc1

/-- C1 witness: a concrete one-file filesystem; delete failure with rollback
restores the original state, and a failed copy leaves the source present. -/
theorem claim_C1_witness :
    (materialize ["a.pdf".data] "a.pdf".data "b.pdf".data true false false true).1 =
      ["a.pdf".data] ∧
    "a.pdf".data ∈ (materialize ["a.pdf".data] "a.pdf".data "b.pdf".data false true false false).1 := by
  have h := claim_C1 ["a.pdf".data] "a.pdf".data "b.pdf".data true false false
    (by decide) (by decide)
  exact ⟨h.1.1, h.2⟩

/-- C8: with the dry-run flag set, processing a file (PDF or screenshot)
leaves the filesystem exactly as it was and never reaches the execute branch:
the outcome is only a report of the computed destination (or fuel exhaustion
in this bounded model of the unbounded collision loop). -/
theorem claim_C8 (fs : List (List Char)) (src nf : List Char) (fuel : Nat)
    (cOk cP dOk clOk : Bool) :
    (process_pdf fs src nf fuel true cOk cP dOk clOk).1 = fs ∧
    (process_screenshot fs src nf fuel true cOk cP dOk clOk).1 = fs ∧
    (∀ dst r, (process_pdf fs src nf fuel true cOk cP dOk clOk).2 ≠ .executed dst r) ∧
    (∀ dst r, (process_screenshot fs src nf fuel true cOk cP dOk clOk).2 ≠ .executed dst r) := by
  unfold process_pdf process_screenshot
  cases resolvePdf fs nf fuel <;> cases resolveShot fs nf fuel <;> simp

/-- C8 witness: dry-run processing of a concrete one-file directory leaves
the filesystem unchanged for both the PDF and the screenshot pipeline. -/
theorem claim_C8_witness :
    (process_pdf ["a.pdf".data] "a.pdf".data "X.pdf".data 3 true true true true true).1 =
      ["a.pdf".data] ∧
    (process_screenshot ["a.png".data] "a.png".data "X.png".data 3 true true true true true).1 =
      ["a.png".data] :=
  ⟨(claim_C8 ["a.pdf".data] "a.pdf".data "X.pdf".data 3 true true true true).1,
   (claim_C8 ["a.png".data] "a.png".data "X.png".data 3 true true true true).2.1⟩

/-- C9 (corrected): every successfully constructed record has its required
field present - construction without `title` / `main_subject` is rejected -
but the empty string is accepted for the required field, not rejected. -/
theorem claim_C9 (a al e el y st ap d tm ct : Option String) :
    mkBibliographicInfo a al e el y none st = .error "Field required" ∧
    (∀ t, mkBibliographicInfo a al e el y (some t) st = .ok ⟨a, al, e, el, y, t, st⟩) ∧
    mkScreenshotInfo ap d tm ct none = .error "Field required" ∧
    (∀ ms, mkScreenshotInfo ap d tm ct (some ms) = .ok ⟨ap, d, tm, ct, ms⟩) :=
  ⟨rfl, fun _ => rfl, rfl, fun _ => rfl⟩

/-- C9 counterexample: construction with an empty required textual field
succeeds - pydantic's plain `str` fields carry no non-emptiness constraint -
contradicting the claim that it is rejected. -/
theorem claim_C9_counterexample :
    mkBibliographicInfo none none none none none (some "") none =
      .ok ⟨none, none, none, none, none, "", none⟩ ∧
    mkScreenshotInfo none none none none (some "") =
      .ok ⟨none, none, none, none, ""⟩ :=
  ⟨rfl, rfl⟩

theorem cleanS_Unknown : cleanS "Unknown" = "Unknown" := rfl

theorem cleanS_UnknownYear : cleanS "Unknown Year" = "Unknown Year" := rfl

theorem cleanS_UnknownDate : cleanS "Unknown-Date" = "Unknown-Date" := rfl

theorem cleanS_Screenshot : cleanS "Screenshot" = "Screenshot" := rfl

theorem cleanS_empty : cleanS "" = "" := rfl

/-- C3 (corrected): the documented placeholder strings are substituted only
for the derived fields (`author_or_editor`, `author_or_editor_last`, `year`,
`application`, `date`, `content_type`); the raw optional fields `author`,
`author_last`, `editor`, `editor_last`, `subtitle` and `time` substitute the
empty string when absent. -/
theorem claim_C3 (b : BibliographicInfo) (s : ScreenshotInfo) :
    (b.author = none → b.editor = none →
      lookupKw (docPairs b) "author_or_editor" = some "Unknown") ∧
    (b.author_last = none → b.editor_last = none →
      lookupKw (docPairs b) "author_or_editor_last" = some "Unknown") ∧
    (b.year = none → lookupKw (docPairs b) "year" = some "Unknown Year") ∧
    (b.author = none → lookupKw (docPairs b) "author" = some "") ∧
    (b.author_last = none → lookupKw (docPairs b) "author_last" = some "") ∧
    (b.editor = none → lookupKw (docPairs b) "editor" = some "") ∧
    (b.editor_last = none → lookupKw (docPairs b) "editor_last" = some "") ∧
    (b.subtitle = none → lookupKw (docPairs b) "subtitle" = some "") ∧
    (s.application = none → lookupKw (shotPairs s) "application" = some "Unknown") ∧
    (s.date = none → lookupKw (shotPairs s) "date" = some "Unknown-Date") ∧
    (s.content_type = none → lookupKw (shotPairs s) "content_type" = some "Screenshot") ∧
    (s.time = none → lookupKw (shotPairs s) "time" = some "") := by
  rcases b with ⟨a, al, e, el, y, t, st⟩
  rcases s with ⟨ap, d, tm, ct, ms⟩
  refine ⟨?_, ?_, ?_, ?_, ?_, ?_, ?_, ?_, ?_, ?_, ?_, ?_⟩
  · intro h1 h2; simp only at h1 h2; subst h1; subst h2
    simp only [docPairs, lookupKw]
    simp [author_or_editor, pyTruthy, cleanS_Unknown]
  · intro h1 h2; simp only at h1 h2; subst h1; subst h2
    simp only [docPairs, lookupKw]
    simp [author_or_editor_last, pyTruthy, cleanS_Unknown]
  · intro h1; simp only at h1; subst h1
    simp only [docPairs, lookupKw]
    simp [pyOr, cleanS_UnknownYear]
  · intro h1; simp only at h1; subst h1
    simp only [docPairs, lookupKw]
    simp [pyOr, cleanS_empty]
  · intro h1; simp only at h1; subst h1
    simp only [docPairs, lookupKw]
    simp [pyOr, cleanS_empty]
  · intro h1; simp only at h1; subst h1
    simp only [docPairs, lookupKw]
    simp [pyOr, cleanS_empty]
  · intro h1; simp only at h1; subst h1
    simp only [docPairs, lookupKw]
    simp [pyOr, cleanS_empty]
  · intro h1; simp only at h1; subst h1
    simp only [docPairs, lookupKw]
    simp [pyOr, cleanS_empty]
  · intro h1; simp only at h1; subst h1
    simp only [shotPairs, lookupKw]
    simp [pyOr, cleanS_Unknown]
  · intro h1; simp only at h1; subst h1
    simp only [shotPairs, lookupKw]
    simp [pyOr, cleanS_UnknownDate]
  · intro h1; simp only at h1; subst h1
    simp only [shotPairs, lookupKw]
    simp [pyOr, cleanS_Screenshot]
  · intro h1; simp only at h1; subst h1
    simp only [shotPairs, lookupKw]
    simp [pyOr, cleanS_empty]

/-- C3 witness: concrete records with the optional fields absent; the `year`
and `date` placeholders resolve to their documented placeholder strings. -/
theorem claim_C3_witness :
    lookupKw (docPairs ⟨none, none, none, none, none, "T", none⟩) "year" = some "Unknown Year" ∧
    lookupKw (shotPairs ⟨none, none, none, none, "S"⟩) "date" = some "Unknown-Date" := by
  have h := claim_C3 ⟨none, none, none, none, none, "T", none⟩ ⟨none, none, none, none, "S"⟩
  exact ⟨h.2.2.1 rfl, h.2.2.2.2.2.2.2.2.2.1 rfl⟩

/-- C3 counterexample: for a record with no author, the value substituted for
the `author` placeholder is the empty string, not the documented placeholder
`"Unknown"`; a template consisting of that placeholder and an extension
renders as just the extension. -/
theorem claim_C3_counterexample :
    lookupKw (docPairs ⟨none, none, none, none, none, "T", none⟩) "author" = some "" ∧
    ("" : String) ≠ "Unknown" ∧
    format_filename (.doc ⟨none, none, none, none, none, "T", none⟩) "\x7bauthor\x7d.pdf" =
      .ok ".pdf" := by
  refine ⟨rfl, by decide, rfl⟩

/-! ### Collision-resolver lemmas -/

theorem takeWhile_append_stop {p : Char → Bool} {xs : List Char} {y : Char} {zs : List Char}
    (hxs : ∀ c ∈ xs, p c = true) (hy : p y = false) :
    (xs ++ y :: zs).takeWhile p = xs := by
  induction xs with
  | nil => simp [List.takeWhile_cons, hy]
  | cons a t ih =>
    rw [List.cons_append, List.takeWhile_cons, hxs a (List.mem_cons_self _ _)]
    rw [ih fun c hc => hxs c (List.mem_cons_of_mem a hc)]
    simp

theorem stemOf_append {base ext : List Char} (hext : '.' ∉ ext) :
    stemOf (base ++ '.' :: ext) = base := by
  rw [stemOf, beforeLastOcc_append hext base]
  rfl

theorem lastDotSeg_append {base ext : List Char} (hext : '.' ∉ ext) :
    lastDotSeg (base ++ '.' :: ext) = ext := by
  rw [lastDotSeg, List.reverse_append, List.reverse_cons, List.append_assoc,
    List.singleton_append]
  rw [takeWhile_append_stop (fun c hc => by
      simp only [decide_eq_true_eq]
      exact fun he => hext (he ▸ List.mem_reverse.mp hc)) (by simp)]
  exact List.reverse_reverse ext

/-- The `while new_path.exists()` loop returns the first free candidate: if
all candidates from `i` up to (excluding) `k` exist and candidate `k` does
not, the loop entered at candidate `i` returns candidate `k`. -/
theorem resolveLoop_found (fs : List (List Char)) (cand : Nat → List Char) :
    ∀ (k i fuel : Nat), i ≤ k → k - i < fuel →
      (∀ j, i ≤ j → j < k → cand j ∈ fs) → cand k ∉ fs →
      resolveLoop fs cand fuel (cand i) (i + 1) = some (cand k) := by
  intro k i fuel
  induction fuel generalizing i with
  | zero => intro _ h; omega
  | succ fuel ih =>
    intro hik hlt hall hk
    rw [resolveLoop]
    by_cases hmem : cand i ∈ fs
    · rw [if_pos hmem]
      have hikk : i < k := by
        rcases Nat.lt_or_ge i k with h | h
        · exact h
        · have he : i = k := by omega
          exact absurd (he ▸ hmem) hk
      exact ih (i + 1) (by omega) (by omega) (fun j hj1 hj2 => hall j (by omega) hj2) hk
    · rw [if_neg hmem]
      have he : i = k := by
        by_contra hne
        exact hmem (hall i (Nat.le_refl i) (by omega))
      rw [he]

/-- C4: collision resolution returns the desired filename unchanged when it
does not exist; otherwise it returns the first `"{stem} ({counter}).{ext}"`
(counter = 1, 2, ...) that does not exist, where for the PDF loop the
extension is `".pdf"` and for the screenshot loop it is the desired name's
extension.  In particular the claim's two examples follow (see the witness). -/
theorem claim_C4 :
    (∀ (fs : List (List Char)) (nf : List Char) (fuel : Nat), 1 ≤ fuel → nf ∉ fs →
        resolvePdf fs nf fuel = some nf ∧ resolveShot fs nf fuel = some nf) ∧
    (∀ (fs : List (List Char)) (base : List Char) (fuel k : Nat),
        base ++ '.' :: ['p', 'd', 'f'] ∈ fs → 1 ≤ k → k < fuel →
        (∀ j, 1 ≤ j → j < k → pdfCandidate base j ∈ fs) →
        pdfCandidate base k ∉ fs →
        resolvePdf fs (base ++ '.' :: ['p', 'd', 'f']) fuel = some (pdfCandidate base k)) ∧
    (∀ (fs : List (List Char)) (base ext : List Char) (fuel k : Nat), '.' ∉ ext →
        base ++ '.' :: ext ∈ fs → 1 ≤ k → k < fuel →
        (∀ j, 1 ≤ j → j < k → shotCandidate base ext j ∈ fs) →
        shotCandidate base ext k ∉ fs →
        resolveShot fs (base ++ '.' :: ext) fuel = some (shotCandidate base ext k)) := by
  refine ⟨?_, ?_, ?_⟩
  · intro fs nf fuel hfuel hnf
    cases fuel with
    | zero => omega
    | succ fuel =>
      constructor
      · rw [resolvePdf, resolveLoop, if_neg hnf]
      · rw [resolveShot, resolveLoop, if_neg hnf]
  · intro fs base fuel k hmem hk hfuel hall hfree
    rw [resolvePdf, stemOf_append (by decide)]
    cases fuel with
    | zero => omega
    | succ fuel =>
      rw [resolveLoop, if_pos hmem]
      exact resolveLoop_found fs (pdfCandidate base) k 1 fuel hk (by omega) hall hfree
  · intro fs base ext fuel k hext hmem hk hfuel hall hfree
    rw [resolveShot, stemOf_append hext, lastDotSeg_append hext]
    cases fuel with
    | zero => omega
    | succ fuel =>
      rw [resolveLoop, if_pos hmem]
      exact resolveLoop_found fs (shotCandidate base ext) k 1 fuel hk (by omega) hall hfree

/-- C4 witness: with `"X.pdf"` and `"X (1).pdf"` present, desired `"X.pdf"`
resolves to `"X (2).pdf"`; in an empty directory `"X.pdf"` is unchanged. -/
theorem claim_C4_witness :
    resolvePdf ["X.pdf".data, "X (1).pdf".data] "X.pdf".data 3 = some "X (2).pdf".data ∧
    resolvePdf ([] : List (List Char)) "X.pdf".data 1 = some "X.pdf".data := by
  constructor
  · have h := claim_C4.2.1 ["X.pdf".data, "X (1).pdf".data] "X".data 3 2
      (by decide) (by decide) (by decide)
      (fun j hj1 hj2 => by
        have : j = 1 := by omega
        subst this
        decide)
      (by decide)
    have he : "X".data ++ '.' :: ['p', 'd', 'f'] = "X.pdf".data := by decide
    rw [he] at h
    rw [h]
    decide
  · exact (claim_C4.1 [] "X.pdf".data 1 (by decide) (by decide)).1

/-! ### Extension-substitution lemmas (claim C10) -/

theorem toLower_isUpper (c : Char) : (Char.toLower c).isUpper = false := by
  unfold Char.toLower Char.isUpper
  by_cases h : c.toNat ≥ 65 ∧ c.toNat ≤ 90
  · rw [if_pos h]
    have hv : (Char.toNat c + 32).isValidChar := Or.inl (by omega)
    rw [Char.ofNat, dif_pos hv]
    unfold Char.ofNatAux
    simp only [UInt32.le_def, BitVec.le_def, BitVec.toNat_ofNatLt]
    simp only [Bool.and_eq_false_iff]
    right
    simp only [decide_eq_false_iff_not, Nat.not_le]
    show 90 < _
    omega
  · rw [if_neg h]
    rw [Bool.and_eq_false_iff]
    by_cases h65 : c.toNat ≥ 65
    · right
      simp only [decide_eq_false_iff_not, UInt32.le_def, BitVec.le_def]
      show ¬(_ ≤ 90)
      have hn : ¬(c.toNat ≤ 90) := by omega
      simpa [Char.toNat, UInt32.toNat] using hn
    · left
      simp only [decide_eq_false_iff_not, UInt32.le_def, BitVec.le_def]
      show ¬(65 ≤ _)
      have hn : ¬(65 ≤ c.toNat) := by omega
      simpa [Char.toNat, UInt32.toNat] using hn

theorem lowerStr_not_upper (x : List Char) : ∀ c ∈ lowerStr x, c.isUpper = false := by
  intro c hc
  rcases List.mem_map.mp hc with ⟨d, _, rfl⟩
  exact toLower_isUpper d

/-- The single-step characterization of `replacePng`: a replacement fires at
the head exactly when the first four characters are `".png"`. -/
theorem replacePng_cons_eq (rep : List Char) (c : Char) (rest : List Char) :
    replacePng rep (c :: rest) =
      if c = '.' ∧ rest.take 3 = ['p', 'n', 'g'] then rep ++ replacePng rep (rest.drop 3)
      else c :: replacePng rep rest := by
  rcases rest with _ | ⟨x, _ | ⟨y, _ | ⟨z, w⟩⟩⟩
  · simp [replacePng]
  · simp [replacePng]
  · simp [replacePng]
  · by_cases hc : c = '.'
    · subst hc
      by_cases hx : x = 'p'
      · subst hx
        by_cases hy : y = 'n'
        · subst hy
          by_cases hz : z = 'g'
          · subst hz; simp [replacePng]
          · simp [replacePng, hz]
        · simp [replacePng, hy]
      · simp [replacePng, hx]
    · simp [replacePng, hc]

theorem replacePng_of_pngFree {rep s : List Char} (h : pngFree s = true) :
    replacePng rep s = s := by
  induction s with
  | nil => rfl
  | cons c rest ih =>
    rw [pngFree] at h
    by_cases hc : c = '.' ∧ rest.take 3 = ['p', 'n', 'g']
    · rw [if_pos hc] at h
      exact absurd h (by simp)
    · rw [if_neg hc] at h
      rw [replacePng_cons_eq, if_neg hc, ih h]

/-- `replace` substitutes at the first `".png"` occurrence and continues on
the remainder; the pattern `".png"` cannot straddle the boundary. -/
theorem replacePng_split (rep b : List Char) :
    ∀ a, pngFree a = true →
      replacePng rep (a ++ '.' :: 'p' :: 'n' :: 'g' :: b) = a ++ rep ++ replacePng rep b := by
  intro a
  induction a with
  | nil =>
    intro _
    rw [List.nil_append, replacePng_cons_eq, if_pos ⟨rfl, by simp⟩]
    simp
  | cons c a' ih =>
    intro hfree
    rw [pngFree] at hfree
    have hcond : ¬(c = '.' ∧ a'.take 3 = ['p', 'n', 'g']) := by
      intro hc
      rw [if_pos hc] at hfree
      exact absurd hfree (by simp)
    have hfree' : pngFree a' = true := by rwa [if_neg hcond] at hfree
    rw [List.cons_append, replacePng_cons_eq]
    have hcond2 : ¬(c = '.' ∧ (a' ++ '.' :: 'p' :: 'n' :: 'g' :: b).take 3 = ['p', 'n', 'g']) := by
      rintro ⟨rfl, htake⟩
      cases a' with
      | nil => simp at htake
      | cons x a'' =>
        cases a'' with
        | nil => simp at htake
        | cons y a''' =>
          cases a''' with
          | nil => simp at htake
          | cons z w => exact hcond ⟨rfl, by simpa using htake⟩
    rw [if_neg hcond2, ih hfree']
    simp

/-- C10: before template substitution, the screenshot pipeline replaces every
occurrence of `".png"` anywhere in the template - also mid-template literal
occurrences - with the lowercased extension of the source image, which
contains no uppercase letter; a template without any `".png"` occurrence is
unchanged. -/
theorem claim_C10 (tmpl src : String) :
    (template_with_ext tmpl src).data = replacePng (lowerStr (pySuffix src.data)) tmpl.data ∧
    (∀ c ∈ lowerStr (pySuffix src.data), c.isUpper = false) ∧
    (∀ a b, tmpl.data = a ++ '.' :: 'p' :: 'n' :: 'g' :: b → pngFree a = true →
        (template_with_ext tmpl src).data =
          a ++ lowerStr (pySuffix src.data) ++ replacePng (lowerStr (pySuffix src.data)) b) ∧
    (pngFree tmpl.data = true → (template_with_ext tmpl src).data = tmpl.data) := by
  refine ⟨rfl, lowerStr_not_upper _, ?_, ?_⟩
  · intro a b hsplit hfree
    show replacePng (lowerStr (pySuffix src.data)) tmpl.data = _
    rw [hsplit, replacePng_split _ _ a hfree]
  · intro hfree
    show replacePng (lowerStr (pySuffix src.data)) tmpl.data = tmpl.data
    exact replacePng_of_pngFree hfree

/-- C10 witness: a template with a mid-template `".png"` and a trailing one;
both occurrences are replaced with the lowercased `".jpeg"` extension of the
upper-case source `"IMG.JPEG"`. -/
theorem claim_C10_witness :
    (template_with_ext "shot .png backup.png" "IMG.JPEG").data =
      "shot .jpeg backup.jpeg".data := by
  have h := (claim_C10 "shot .png backup.png" "IMG.JPEG").2.2.1
    "shot ".data (" backup.png".data) (by decide) (by decide)
  rw [h]
  decide

/-! ### Template-engine lemmas (claim C7) -/

theorem lookupKw_isSome (pairs : List (String × String)) (k : String) :
    (lookupKw pairs k).isSome = true ↔ k ∈ pairs.map Prod.fst := by
  induction pairs with
  | nil => simp [lookupKw]
  | cons p rest ih =>
    obtain ⟨pk, pv⟩ := p
    rw [lookupKw]
    by_cases h : k = pk
    · subst h; simp
    · rw [if_neg h]
      simp [ih, h]

/-- A closed template whose keys all resolve formats successfully. -/
theorem fmtAux_ok (lookup : String → Option String) :
    ∀ (cs : List Char) (mode : Option (List Char)),
      closedAux mode cs = true →
      (∀ k ∈ keysAux mode cs, (lookup k).isSome = true) →
      ∃ out, fmtAux lookup mode cs = .ok out := by
  intro cs
  induction cs with
  | nil =>
    intro mode hclosed _
    cases mode with
    | none => exact ⟨[], rfl⟩
    | some key => simp [closedAux] at hclosed
  | cons c rest ih =>
    intro mode hclosed hkeys
    cases mode with
    | none =>
      rw [closedAux] at hclosed
      rw [keysAux] at hkeys
      by_cases hc : c = lbrace
      · rw [if_pos hc] at hclosed hkeys
        obtain ⟨out, hout⟩ := ih (some []) hclosed hkeys
        exact ⟨out, by rw [fmtAux, if_pos hc, hout]⟩
      · rw [if_neg hc] at hclosed hkeys
        obtain ⟨out, hout⟩ := ih none hclosed hkeys
        exact ⟨c :: out, by rw [fmtAux, if_neg hc, hout]; rfl⟩
    | some key =>
      rw [closedAux] at hclosed
      rw [keysAux] at hkeys
      by_cases hc : c = rbrace
      · rw [if_pos hc] at hclosed hkeys
        have hksome : (lookup (String.mk key.reverse)).isSome = true :=
          hkeys _ (List.mem_cons_self _ _)
        obtain ⟨v, hv⟩ := Option.isSome_iff_exists.mp hksome
        obtain ⟨out, hout⟩ := ih none hclosed (fun k hk => hkeys k (List.mem_cons_of_mem _ hk))
        exact ⟨v.data ++ out, by rw [fmtAux, if_pos hc, hv, hout]; rfl⟩
      · rw [if_neg hc] at hclosed hkeys
        obtain ⟨out, hout⟩ := ih (some (c :: key)) hclosed hkeys
        exact ⟨out, by rw [fmtAux, if_neg hc, hout]⟩

/-- A template referencing an unresolvable key fails with `unknownKey`,
naming a key that does not resolve. -/
theorem fmtAux_err (lookup : String → Option String) :
    ∀ (cs : List Char) (mode : Option (List Char)),
      (∃ k ∈ keysAux mode cs, lookup k = none) →
      ∃ k, lookup k = none ∧ fmtAux lookup mode cs = .error (.unknownKey k) := by
  intro cs
  induction cs with
  | nil =>
    rintro mode ⟨k, hk, _⟩
    rw [keysAux] at hk
    simp at hk
  | cons c rest ih =>
    rintro mode ⟨k, hk, hnone⟩
    cases mode with
    | none =>
      rw [keysAux] at hk
      by_cases hc : c = lbrace
      · rw [if_pos hc] at hk
        obtain ⟨k', h1, h2⟩ := ih (some []) ⟨k, hk, hnone⟩
        exact ⟨k', h1, by rw [fmtAux, if_pos hc]; exact h2⟩
      · rw [if_neg hc] at hk
        obtain ⟨k', h1, h2⟩ := ih none ⟨k, hk, hnone⟩
        exact ⟨k', h1, by rw [fmtAux, if_neg hc, h2]; rfl⟩
    | some key =>
      rw [keysAux] at hk
      by_cases hc : c = rbrace
      · rw [if_pos hc] at hk
        rcases List.mem_cons.mp hk with rfl | hk'
        · exact ⟨String.mk key.reverse, hnone, by rw [fmtAux, if_pos hc, hnone]⟩
        · cases hl : lookup (String.mk key.reverse) with
          | none => exact ⟨String.mk key.reverse, hl, by rw [fmtAux, if_pos hc, hl]⟩
          | some v =>
            obtain ⟨k', h1, h2⟩ := ih none ⟨k, hk', hnone⟩
            exact ⟨k', h1, by rw [fmtAux, if_pos hc, hl, h2]; rfl⟩
      · rw [if_neg hc] at hk
        obtain ⟨k', h1, h2⟩ := ih (some (c :: key)) ⟨k, hk, hnone⟩
        exact ⟨k', h1, by rw [fmtAux, if_neg hc]; exact h2⟩

/-- C7: for either metadata variant, a template referencing any placeholder
key outside the variant's recognized set fails with a `TemplateKeyError`
naming an unrecognized key, regardless of the valid keys present; a closed
template using only recognized keys formats without error. -/
theorem claim_C7 (m : MetadataRecord) (template : String) :
    ((∃ k ∈ tmplKeys template, k ∉ recognizedKeys m) →
      ∃ k, k ∉ recognizedKeys m ∧
        format_filename m template = .error (.unknownKey k)) ∧
    (closedTmpl template = true →
      (∀ k ∈ tmplKeys template, k ∈ recognizedKeys m) →
      ∃ out, format_filename m template = .ok out) := by
  have hiff : ∀ k, (lookupKw (recordPairs m) k).isSome = true ↔ k ∈ recognizedKeys m :=
    fun k => lookupKw_isSome (recordPairs m) k
  constructor
  · rintro ⟨k, hk, hout⟩
    have hnone : lookupKw (recordPairs m) k = none := by
      cases hl : lookupKw (recordPairs m) k with
      | none => rfl
      | some v => exact absurd ((hiff k).mp (by rw [hl]; rfl)) hout
    obtain ⟨k', h1, h2⟩ :=
      fmtAux_err (lookupKw (recordPairs m)) template.data none ⟨k, hk, hnone⟩
    refine ⟨k', ?_, ?_⟩
    · intro hmem
      have := (hiff k').mpr hmem
      rw [h1] at this
      exact absurd this (by simp)
    · rw [format_filename, pyFormat, h2]
      rfl
  · intro hclosed hkeys
    obtain ⟨out, hout⟩ := fmtAux_ok (lookupKw (recordPairs m)) template.data none hclosed
      (fun k hk => (hiff k).mpr (hkeys k hk))
    exact ⟨String.mk out, by rw [format_filename, pyFormat, hout]; rfl⟩

/-- C7 witness: a template with only recognized keys formats successfully;
adding the unrecognized `badkey` beside valid keys fails with a
`TemplateKeyError` naming an unrecognized key. -/
theorem claim_C7_witness :
    (∃ out, format_filename (.doc ⟨none, none, none, none, none, "T", none⟩)
        "\x7btitle\x7d.pdf" = .ok out) ∧
    (∃ k, k ∉ recognizedKeys (.doc ⟨none, none, none, none, none, "T", none⟩) ∧
      format_filename (.doc ⟨none, none, none, none, none, "T", none⟩)
        "\x7bbadkey\x7d \x7btitle\x7d.pdf" = .error (.unknownKey k)) := by
  constructor
  · exact (claim_C7 (.doc ⟨none, none, none, none, none, "T", none⟩) "\x7btitle\x7d.pdf").2
      (by decide) (by decide)
  · exact (claim_C7 (.doc ⟨none, none, none, none, none, "T", none⟩)
      "\x7bbadkey\x7d \x7btitle\x7d.pdf").1 ⟨"badkey", by decide, by decide⟩

/-! ### Name-formatter lemmas (claim C5) -/

theorem headNotWs_dropWhile (l : List Char) :
    headNotWs (l.dropWhile Char.isWhitespace) := by
  induction l with
  | nil => intro c hc; simp at hc
  | cons a t ih =>
    rw [List.dropWhile_cons]
    by_cases ha : a.isWhitespace = true
    · rw [if_pos ha]; exact ih
    · rw [if_neg ha]
      intro c hc
      simp only [List.head?_cons, Option.some.injEq] at hc
      subst hc
      exact Bool.not_eq_true _ ▸ (by simpa using ha)

theorem getLast?_dropWhile {p : Char → Bool} (l : List Char)
    (h : l.dropWhile p ≠ []) : (l.dropWhile p).getLast? = l.getLast? := by
  induction l with
  | nil => simp at h
  | cons a t ih =>
    rw [List.dropWhile_cons] at h ⊢
    by_cases ha : p a = true
    · rw [if_pos ha] at h ⊢
      rw [ih h]
      have ht : t ≠ [] := by
        rintro rfl
        simp at h
      cases t with
      | nil => exact absurd rfl ht
      | cons b t' => rw [List.getLast?_cons_cons]
    · rw [if_neg ha]

theorem trimWs_headNotWs (cs : List Char) : headNotWs (trimWs cs) := by
  intro c hc
  rw [trimWs, List.head?_reverse] at hc
  by_cases hnil : (cs.dropWhile Char.isWhitespace).reverse.dropWhile Char.isWhitespace = []
  · rw [hnil] at hc
    simp at hc
  · rw [getLast?_dropWhile _ hnil, List.getLast?_reverse] at hc
    exact headNotWs_dropWhile cs c hc

theorem trimWs_lastNotWs (cs : List Char) : lastNotWs (trimWs cs) := by
  intro c hc
  rw [trimWs, List.getLast?_reverse] at hc
  exact headNotWs_dropWhile _ c hc

theorem trimWs_idem (cs : List Char) : trimWs (trimWs cs) = trimWs cs :=
  trimWs_eq_self (trimWs_headNotWs cs) (trimWs_lastNotWs cs)

/-- Every token a split step emits is a trimmed string. -/
theorem mem_splitStep_trimmed {sep x : List Char} :
    ∀ names : List (List Char), x ∈ splitStep sep names → ∃ t, x = trimWs t := by
  intro names
  induction names with
  | nil => intro h; simp [splitStep] at h
  | cons n rest ih =>
    intro h
    rw [splitStep, List.foldr_cons] at h
    rcases List.mem_append.mp h with h1 | h1
    · rcases List.mem_filter.mp h1 with ⟨h2, _⟩
      rcases List.mem_map.mp h2 with ⟨t, _, rfl⟩
      exact ⟨t, rfl⟩
    · exact ih (by rw [splitStep]; exact h1)

theorem splitNames_trimmed (cs : List Char) :
    ∀ n ∈ splitNames cs, trimWs n = n := by
  intro n hn
  obtain ⟨t, rfl⟩ := mem_splitStep_trimmed _ hn
  exact trimWs_idem t

/-- The dedup loop of the source equals the spec's first-seen dedup of the
not-yet-seen tokens, provided the tokens are already trimmed. -/
theorem dedupAux_eq :
    ∀ ns : List (List Char), (∀ n ∈ ns, trimWs n = n) →
    ∀ seen acc, dedupAux seen acc ns =
      acc.reverse ++ dedupFirstSeen (ns.filter (fun m => m ∉ seen)) := by
  intro ns
  induction ns with
  | nil =>
    intro _ seen acc
    rw [dedupAux, List.filter_nil, dedupFirstSeen, List.append_nil]
  | cons n rest ih =>
    intro htrim seen acc
    have htn : trimWs n = n := htrim n (List.mem_cons_self _ _)
    have htrest : ∀ m ∈ rest, trimWs m = m :=
      fun m hm => htrim m (List.mem_cons_of_mem n hm)
    rw [dedupAux]
    by_cases hn : n ∈ seen
    · rw [if_pos hn, ih htrest seen acc, List.filter_cons, if_neg (by simpa using hn)]
    · rw [if_neg hn, htn, ih htrest (n :: seen) (n :: acc)]
      rw [List.filter_cons, if_pos (by simpa using hn)]
      rw [dedupFirstSeen]
      have hfilters : (rest.filter (fun m => m ∉ seen)).filter (fun m => m ≠ n) =
          rest.filter (fun m => m ∉ n :: seen) := by
        rw [List.filter_filter]
        apply List.filter_congr
        intro m _
        by_cases h1 : m = n <;> by_cases h2 : m ∈ seen <;> simp [h1, h2]
      rw [hfilters]
      simp

theorem splitNames_nil : splitNames [] = [] := by
  have h1 : pySplitOn sepAnd [] = [[]] := by rw [pySplitOn]
  have h2 : splitStep sepAnd [[]] = [] := by
    rw [splitStep, List.foldr_cons, List.foldr_nil, h1]
    rfl
  rw [splitNames, h2]
  rfl

/-- C5: the multi-person name formatter agrees, on every input string, with
the spec's description - progressive split on the four separators, trim,
drop empties, first-seen case-sensitive dedup, then `"Unknown"` for zero
names, the name itself for one, a `", "` join for two or three, and the
first three plus `" et al"` for four or more - and maps `""` to
`"Unknown"`; it is total by construction. -/
theorem claim_C5 :
    (∀ s : String, format_multiple_last_names s = specNameList s) ∧
    format_multiple_last_names "" = "Unknown" := by
  have hmain : ∀ s : String, format_multiple_last_names s = specNameList s := by
    intro s
    rw [format_multiple_last_names, specNameList]
    by_cases hs : s.data = []
    · rw [if_pos hs, hs, splitNames_nil]
      rw [dedupFirstSeen]
      rfl
    · rw [if_neg hs]
      have hd := dedupAux_eq (splitNames s.data) (splitNames_trimmed s.data) [] []
      have hfilter : (splitNames s.data).filter (fun m => m ∉ ([] : List (List Char))) =
          splitNames s.data :=
        List.filter_eq_self.mpr fun a _ => by simp
      rw [hfilter] at hd
      simp only [List.reverse_nil, List.nil_append] at hd
      rw [hd]
      by_cases hu : dedupFirstSeen (splitNames s.data) = []
      · rw [if_pos hu, if_pos (by rw [hu]; rfl)]
      · have h0 : ¬(dedupFirstSeen (splitNames s.data)).length = 0 :=
          fun h => hu (List.length_eq_zero.mp h)
        rw [if_neg hu, if_neg h0]
  refine ⟨hmain, ?_⟩
  rw [hmain "", specNameList]
  rw [show ("" : String).data = [] from rfl, splitNames_nil, dedupFirstSeen]
  rfl

/-- C2 (corrected): the sanitizer is idempotent on every input whose
collapsed, illegal-free form is at most 200 characters - that is, whenever
the truncation step does not fire.  Truncation can break idempotence
(see the counterexample). -/
theorem claim_C2 (s : String) (h : (collapseWs (removeIllegal s.data)).length ≤ 200) :
    clean_for_filename (clean_for_filename s.data) = clean_for_filename s.data :=
  clean_idem_of_le h

/-- C2 witness: a concrete short input with double spaces and a tab;
sanitizing twice equals sanitizing once. -/
theorem claim_C2_witness :
    clean_for_filename (clean_for_filename ("a \t b<>c" : String).data) =
      clean_for_filename ("a \t b<>c" : String).data :=
  claim_C2 "a \t b<>c" (by decide)

set_option maxRecDepth 100000 in
/-- C2 counterexample: 199 `A`s, a space, 10 `B`s.  One sanitization pass
truncates at the space and appends `"..."`, giving 202 characters; the second
pass truncates again (hard cut at 200, no space) and appends another `"..."`,
giving a different, 203-character string.  So `sanitize` is not idempotent. -/
theorem claim_C2_counterexample :
    clean_for_filename (clean_for_filename cxC2.data) ≠ clean_for_filename cxC2.data := by
  decide

/-- C6: for every input, the sanitizer's output contains none of the nine
illegal characters, has no run of two or more whitespace characters, no
leading or trailing whitespace, and length at most 203 (at most 200 when no
truncation fired); the three steps are applied in order (removal, collapse,
truncation, final strip); when the collapsed text exceeds 200 characters the
output is the segment of the first 200 characters before their last space
(or all 200 when they contain no space) followed by `"..."`. -/
theorem claim_C6 (s : String) :
    (∀ c ∈ clean_for_filename s.data, c ∉ illegalChars) ∧
    noDoubleWsB (clean_for_filename s.data) = true ∧
    headNotWs (clean_for_filename s.data) ∧
    lastNotWs (clean_for_filename s.data) ∧
    (clean_for_filename s.data).length ≤ 203 ∧
    clean_for_filename s.data = trimWs (truncate200 (collapseWs (removeIllegal s.data))) ∧
    ((collapseWs (removeIllegal s.data)).length ≤ 200 →
        clean_for_filename s.data = collapseWs (removeIllegal s.data) ∧
        (clean_for_filename s.data).length ≤ 200) ∧
    ((collapseWs (removeIllegal s.data)).length > 200 →
        clean_for_filename s.data =
          dropLastSpaceSeg ((collapseWs (removeIllegal s.data)).take 200) ++ dots ∧
        (∀ a b, (collapseWs (removeIllegal s.data)).take 200 = a ++ ' ' :: b → ' ' ∉ b →
            dropLastSpaceSeg ((collapseWs (removeIllegal s.data)).take 200) = a) ∧
        (' ' ∉ (collapseWs (removeIllegal s.data)).take 200 →
            dropLastSpaceSeg ((collapseWs (removeIllegal s.data)).take 200) =
              (collapseWs (removeIllegal s.data)).take 200)) := by
  refine ⟨clean_no_illegal, ?_, ?_, ?_, ?_, rfl, ?_, ?_⟩
  case _ =>
    -- no double whitespace
    by_cases h : (collapseWs (removeIllegal s.data)).length ≤ 200
    · rw [clean_eq_of_le h]
      exact collapseWs_noDoubleWs _
    · rw [clean_eq_of_gt (by omega)]
      obtain ⟨_, _, _, hndw, _, _⟩ :=
        dropLastSpaceSeg_struct (m := collapseWs (removeIllegal s.data)) (by omega)
          (collapseWs_noDoubleWs _) (collapseWs_headNotWs _)
          (fun c hc hw => collapseWs_ws_eq_space hc hw)
      exact noDoubleWsB_append_nonws hndw (by decide)
  case _ =>
    by_cases h : (collapseWs (removeIllegal s.data)).length ≤ 200
    · rw [clean_eq_of_le h]
      exact collapseWs_headNotWs _
    · rw [clean_eq_of_gt (by omega)]
      obtain ⟨hne, hhead, _, _, _, _⟩ :=
        dropLastSpaceSeg_struct (m := collapseWs (removeIllegal s.data)) (by omega)
          (collapseWs_noDoubleWs _) (collapseWs_headNotWs _)
          (fun c hc hw => collapseWs_ws_eq_space hc hw)
      exact headNotWs_append hne hhead
  case _ =>
    by_cases h : (collapseWs (removeIllegal s.data)).length ≤ 200
    · rw [clean_eq_of_le h]
      exact collapseWs_lastNotWs _
    · rw [clean_eq_of_gt (by omega)]
      exact lastNotWs_append_dots _
  case _ =>
    by_cases h : (collapseWs (removeIllegal s.data)).length ≤ 200
    · rw [clean_eq_of_le h]
      omega
    · rw [clean_eq_of_gt (by omega)]
      obtain ⟨_, _, _, _, hlen, _⟩ :=
        dropLastSpaceSeg_struct (m := collapseWs (removeIllegal s.data)) (by omega)
          (collapseWs_noDoubleWs _) (collapseWs_headNotWs _)
          (fun c hc hw => collapseWs_ws_eq_space hc hw)
      rw [List.length_append]
      have hdots : dots.length = 3 := rfl
      omega
  case _ =>
    intro h
    rw [clean_eq_of_le h]
    exact ⟨rfl, h⟩
  case _ =>
    intro h
    refine ⟨clean_eq_of_gt h, ?_, ?_⟩
    · intro a b hab hb
      rw [dropLastSpaceSeg, hab, beforeLastOcc_append hb]
      rfl
    · intro hnsp
      rw [dropLastSpaceSeg, beforeLastOcc_eq_none hnsp]
      rfl

/-- C6 witness: a concrete input with a tab, double spaces and illegal
characters; the output equals the collapsed illegal-free text and stays
within 200 characters. -/
theorem claim_C6_witness :
    clean_for_filename ("a \t b<>c" : String).data =
      collapseWs (removeIllegal ("a \t b<>c" : String).data) ∧
    (clean_for_filename ("a \t b<>c" : String).data).length ≤ 200 :=
  (claim_C6 "a \t b<>c").2.2.2.2.2.2.1 (by decide)

end FileRenamer
